import Mathlib

/-!
Shallow embedding of the `ChatRenderer` class from `src/static/js/chat.js`.

The renderer state consists of:
* `messages` — the in-memory array `this.messages`;
* `isTyping` — the boolean flag `this.isTyping`;
* `dom`      — the children of the DOM container, in document order
               (message elements and the typing-indicator element);
* `events`   — the log of `suggestionClick` custom events dispatched;
* `errors`   — the log of `console.error` calls.

JavaScript objects passed by the caller are modelled with optional fields:
`none` stands for an absent key, `some v` for a key present with value `v`.
String truthiness (`!message.text`) is modelled: the empty string is falsy.
`Date.now()` / `new Date()` are modelled by an explicit `now : Nat` argument
supplied by the environment at each call.
-/

namespace Chat

/-- A suggestion argument: the code accepts either a plain string or an
object with optional `id` and `text` fields
(`typeof suggestion === 'string' ? suggestion : suggestion.text`). -/
inductive SuggArg where
  | str (s : String)
  | obj (id : Option String) (text : Option String)
deriving DecidableEq, Repr

/-- A caller-supplied message object for `addMessage` / `updateMessage`.
`none` = the key is absent from the object. -/
structure MsgArg where
  id : Option String := none
  text : Option String := none
  sender : Option String := none
  timestamp : Option Nat := none
  userAvatar : Option String := none
  userInitial : Option String := none
  suggestions : Option (List SuggArg) := none
deriving DecidableEq, Repr

/-- A message record as stored in `this.messages`. -/
structure Message where
  id : String
  text : String
  sender : String
  timestamp : Nat
  userAvatar : Option String
  userInitial : Option String
  suggestions : Option (List SuggArg)
deriving DecidableEq, Repr, Inhabited

/-- A direct child of the DOM container: a rendered message element
(carrying the record it was rendered from, which also gives its
`data-message-id` attribute) or the typing-indicator element. -/
inductive DomNode where
  | msg (m : Message)
  | typing
deriving DecidableEq, Repr

/-- The `detail` of a dispatched `suggestionClick` custom event. -/
structure SuggEvent where
  suggestion : SuggArg
  messageId : String
  text : Option String
deriving DecidableEq, Repr

/-- The state of a `ChatRenderer` instance together with its container. -/
structure RState where
  messages : List Message
  isTyping : Bool
  dom : List DomNode
  events : List SuggEvent
  errors : List String
deriving DecidableEq, Repr

/-- Freshly constructed renderer: empty list, no typing flag, empty DOM. -/
def initState : RState := ⟨[], false, [], [], []⟩

/-- JavaScript truthiness of an optional string value:
absent and the empty string are falsy. -/
def truthy (o : Option String) : Bool := o.getD "" != ""

/-- The record pushed by `addMessage`: the object literal supplies defaults
(`message.id || Date.now().toString()`, `message.sender || 'user'`,
`message.timestamp || new Date()`), and the trailing spread `...message`
overrides each of them whenever the corresponding key is present. -/
def mkStored (now : Nat) (m : MsgArg) : Message where
  id := m.id.getD (toString now)
  text := m.text.getD ""
  sender := m.sender.getD "user"
  timestamp := m.timestamp.getD now
  userAvatar := m.userAvatar
  userInitial := m.userInitial
  suggestions := m.suggestions

/-- `addMessage(message)`: rejects a missing object or a falsy `text`
(logging `console.error`), otherwise pushes the record and renders it by
appending one message element at the end of the container. -/
def addMessage (s : RState) (now : Nat) (marg : Option MsgArg) : RState :=
  match marg with
  | none => { s with errors := s.errors ++ ["Invalid message object"] }
  | some m =>
    if truthy m.text then
      let stored := mkStored now m
      { s with
          messages := s.messages ++ [stored]
          dom := s.dom ++ [DomNode.msg stored] }
    else
      { s with errors := s.errors ++ ["Invalid message object"] }

/-- `Array.prototype.findIndex` specialised to the message array
(`-1` is modelled as `none`). -/
def findIndex (p : Message → Bool) : List Message → Option Nat
  | [] => none
  | m :: rest => if p m then some 0 else (findIndex p rest).map (· + 1)

/-- Removal of the first node matching a predicate, modelling
`container.querySelector(...)` / `getElementById(...)` followed by
`element.remove()`; when no node matches, nothing is removed. -/
def removeFirst (p : α → Bool) : List α → List α
  | [] => []
  | n :: rest => if p n then rest else n :: removeFirst p rest

/-- Whether a container child carries `data-message-id = mid`
(only message elements do; the typing indicator has no such attribute). -/
def nodeHasId (mid : String) : DomNode → Bool
  | .msg m => m.id == mid
  | .typing => false

/-- Whether a container child is the typing-indicator element. -/
def isTypingNode : DomNode → Bool
  | .msg _ => false
  | .typing => true

/-- The merged record `{ ...old, ...updates }`: a key present in `updates`
wins, an absent key keeps the old value. -/
def mergeMsg (old : Message) (u : MsgArg) : Message where
  id := u.id.getD old.id
  text := u.text.getD old.text
  sender := u.sender.getD old.sender
  timestamp := u.timestamp.getD old.timestamp
  userAvatar := match u.userAvatar with | some v => some v | none => old.userAvatar
  userInitial := match u.userInitial with | some v => some v | none => old.userInitial
  suggestions := match u.suggestions with | some v => some v | none => old.suggestions

/-- `updateMessage(messageId, updates)`: `findIndex` on the array; when not
found, log an error and return; when found, replace the array slot with the
merged record, remove the first DOM element whose `data-message-id` matches
(when present), and re-render the merged record at the end of the container. -/
def updateMessage (s : RState) (mid : String) (u : MsgArg) : RState :=
  match findIndex (fun m => m.id == mid) s.messages with
  | none => { s with errors := s.errors ++ ["Message with ID " ++ mid ++ " not found"] }
  | some i =>
    let merged := mergeMsg (s.messages.getD i default) u
    { s with
        messages := s.messages.set i merged
        dom := removeFirst (nodeHasId mid) s.dom ++ [DomNode.msg merged] }

/-- `clearMessages()`: `container.innerHTML = ''` and `this.messages = []`.
The `isTyping` flag is not touched. -/
def clearMessages (s : RState) : RState :=
  { s with messages := [], dom := [] }

/-- `loadMessages(messages)`: clears, then adds each entry in order (the
`setTimeout` staggering only delays the adds; each add reads its own
`Date.now()`, supplied here as the paired `Nat`). -/
def loadMessages (s : RState) (ms : List (Nat × Option MsgArg)) : RState :=
  ms.foldl (fun t p => addMessage t p.1 p.2) (clearMessages s)

/-- `showTyping()`: a no-op when the flag is already set; otherwise sets the
flag and appends the indicator element to the container. -/
def showTyping (s : RState) : RState :=
  if s.isTyping then s
  else { s with isTyping := true, dom := s.dom ++ [DomNode.typing] }

/-- `hideTyping()`: removes the indicator element when present and always
resets the flag. -/
def hideTyping (s : RState) : RState :=
  { s with isTyping := false, dom := removeFirst isTypingNode s.dom }

/-- `getMessages()`: returns `[...this.messages]` — the contents of the
fresh copy; the heap-level copying is modelled separately below. -/
def getMessages (s : RState) : List Message := s.messages

/-- The text extracted from a suggestion:
`typeof suggestion === 'string' ? suggestion : suggestion.text`. -/
def suggText : SuggArg → Option String
  | .str s => some s
  | .obj _ t => t

/-- `handleSuggestionClick(suggestion, messageId)`: adds a user message built
from the suggestion text (with `id = Date.now().toString()`,
`userAvatar = getUserAvatar() = null`, `userInitial = getUserInitial() = 'U'`),
hides the suggestion chips inside the parent message element (its inner
suggestions container; container children are unaffected), and dispatches one
`suggestionClick` custom event. -/
def handleSuggestionClick (s : RState) (now : Nat) (g : SuggArg) (mid : String) : RState :=
  let t := suggText g
  let s1 := addMessage s now (some
    { id := some (toString now)
      text := t
      sender := some "user"
      timestamp := some now
      userAvatar := none
      userInitial := some "U"
      suggestions := none })
  { s1 with events := s1.events ++ [⟨g, mid, t⟩] }

/-- One externally triggered operation on the renderer. -/
inductive Op where
  | add (now : Nat) (marg : Option MsgArg)
  | update (mid : String) (u : MsgArg)
  | load (ms : List (Nat × Option MsgArg))
  | sugg (now : Nat) (g : SuggArg) (mid : String)
  | clear
  | showTy
  | hideTy
deriving DecidableEq, Repr

/-- Interpretation of one operation. -/
def step (s : RState) : Op → RState
  | .add now marg => addMessage s now marg
  | .update mid u => updateMessage s mid u
  | .load ms => loadMessages s ms
  | .sugg now g mid => handleSuggestionClick s now g mid
  | .clear => clearMessages s
  | .showTy => showTyping s
  | .hideTy => hideTyping s

/-- Run a sequence of operations from a given state. -/
def runFrom (s : RState) (ops : List Op) : RState := ops.foldl step s

/-- Run a sequence of operations from the freshly constructed renderer. -/
def run (ops : List Op) : RState := runFrom initState ops

/-- The ids of the in-memory messages, in list order. -/
def idsOf (s : RState) : List String := s.messages.map Message.id

/-- The records carried by the message elements of the container,
in document order (typing indicator excluded). -/
def domMessages (dom : List DomNode) : List Message :=
  dom.filterMap (fun n => match n with | .msg m => some m | .typing => none)

/-- Number of typing-indicator elements in the container. -/
def typingCount (dom : List DomNode) : Nat := dom.countP isTypingNode

/-! ### Heap-level model of `getMessages` (array aliasing) -/

/-- A heap of JavaScript arrays of message records: a reference is an index
into the heap. -/
structure Store where
  arrays : List (List Message)
deriving DecidableEq, Repr

/-- The contents of the array behind a reference. -/
def readRef (st : Store) (r : Nat) : List Message := st.arrays.getD r []

/-- `getMessages()` at the heap level: `return [...this.messages]` allocates
a fresh array, copies the elements of the array behind `r` into it, and
returns the new reference; no existing array is written. -/
def getMessagesRef (st : Store) (r : Nat) : Store × Nat :=
  (⟨st.arrays ++ [readRef st r]⟩, st.arrays.length)

/-- A caller mutation of the array behind a reference: `push`, `pop`,
`splice`, element assignment, ... each replace its contents in place. -/
def writeRef (st : Store) (r : Nat) (l : List Message) : Store :=
  ⟨st.arrays.set r l⟩

/-! ### Conditions on operation sequences

The spec notes that id uniqueness is "not enforced"; the fresh-id and
sender-range conditions below describe the calling discipline under which the
corresponding invariants do hold. -/

/-- The id `addMessage` stores for a given argument: the supplied `id` when
the key is present, otherwise `Date.now().toString()`. -/
def addId (now : Nat) (m : MsgArg) : String := m.id.getD (toString now)

/-- The records one `addMessage` call stores: one for a valid argument,
none for a rejected one. -/
def addedRecords (now : Nat) (marg : Option MsgArg) : List Message :=
  match marg with
  | some m => if truthy m.text then [mkStored now m] else []
  | none => []

/-- The records a `loadMessages` call eventually stores: each valid entry in
order, invalid entries skipped by `addMessage`. -/
def loadStored : List (Nat × Option MsgArg) → List Message
  | [] => []
  | (now, marg) :: rest => addedRecords now marg ++ loadStored rest

/-- The ids a `loadMessages` call stores. -/
def loadIds (ms : List (Nat × Option MsgArg)) : List String :=
  (loadStored ms).map Message.id

/-- Boolean pairwise-distinctness of a list of strings. -/
def bnodup : List String → Bool
  | [] => true
  | a :: t => !(t.contains a) && bnodup t

/-- The fresh-id condition for one operation in one state: any id the
operation stores is not already in the list (and the ids stored by a bulk
load are pairwise distinct); an id rewritten by `updateMessage` is the
searched id itself or fresh. -/
def opFreshOk (s : RState) : Op → Bool
  | .add now marg =>
    match marg with
    | some m => if truthy m.text then !(idsOf s).contains (addId now m) else true
    | none => true
  | .update mid u =>
    match u.id with
    | none => true
    | some j => j == mid || !(idsOf s).contains j
  | .load ms => bnodup (loadIds ms)
  | .sugg now g _ =>
    if truthy (suggText g) then !(idsOf s).contains (toString now) else true
  | .clear => true
  | .showTy => true
  | .hideTy => true

/-- The fresh-id condition along a whole operation sequence. -/
def okRun (s : RState) : List Op → Bool
  | [] => true
  | op :: rest => opFreshOk s op && okRun (step s op) rest

/-- Whether a caller-supplied sender field is absent or in the documented
range `"user"` / `"ai"`. -/
def senderVal (o : Option String) : Bool :=
  match o with
  | none => true
  | some v => v == "user" || v == "ai"

/-- The sender-range condition for one operation: every sender field it
supplies is absent or `"user"` / `"ai"`. -/
def opSenderOk : Op → Bool
  | .add _ marg => match marg with | some m => senderVal m.sender | none => true
  | .update _ u => senderVal u.sender
  | .load ms => ms.all (fun p => match p.2 with | some m => senderVal m.sender | none => true)
  | .sugg _ _ _ => true
  | .clear => true
  | .showTy => true
  | .hideTy => true

/-- Whether an operation bulk-clears the list (`clearMessages`, or
`loadMessages`, which begins by clearing). -/
def isClearing : Op → Bool
  | .clear => true
  | .load _ => true
  | _ => false

/-- Whether an operation leaves every stored id in place: always, except for
an `updateMessage` whose updates object rewrites the id to a different one. -/
def keepsId : Op → Bool
  | .update mid u => match u.id with | none => true | some j => j == mid
  | _ => true

/-- The typing-indicator invariant: at most one indicator element, and none
when the flag is down. -/
def typingOk (s : RState) : Prop :=
  typingCount s.dom ≤ 1 ∧ (s.isTyping = false → typingCount s.dom = 0)

/-! ### Basic lemmas about the embedding -/

theorem set_self (l : List α) (i : Nat) (h : i < l.length) :
    l.set i (l.get ⟨i, h⟩) = l := by
  induction l generalizing i with
  | nil => simp at h
  | cons a t ih =>
    match i with
    | 0 => simp
    | i + 1 =>
      simp only [List.set_cons_succ, List.get, List.cons.injEq, true_and]
      exact ih i (by simpa using h)

theorem nodup_set_of_fresh {l : List String} {i : Nat} {j : String}
    (hn : l.Nodup) (hj : j ∉ l) : (l.set i j).Nodup := by
  induction l generalizing i with
  | nil => simp
  | cons a t ih =>
    match i with
    | 0 =>
      simp only [List.set_cons_zero, List.nodup_cons] at hn ⊢
      exact ⟨fun h => hj (List.mem_cons_of_mem a h), hn.2⟩
    | i + 1 =>
      simp only [List.set_cons_succ, List.nodup_cons] at hn ⊢
      refine ⟨fun h => ?_, ih hn.2 (fun h => hj (List.mem_cons_of_mem a h)) (i := i)⟩
      rcases List.mem_or_eq_of_mem_set h with h' | rfl
      · exact hn.1 h'
      · exact hj (List.mem_cons_self a t)

theorem removeFirst_of_not_mem {l : List α} {p : α → Bool}
    (h : ∀ a ∈ l, p a = false) : removeFirst p l = l := by
  induction l with
  | nil => rfl
  | cons a t ih =>
    simp only [removeFirst, h a (List.mem_cons_self a t)]
    simp only [Bool.false_eq_true, if_false, List.cons.injEq, true_and]
    exact ih (fun b hb => h b (List.mem_cons_of_mem a hb))

theorem removeFirst_eq_erase [DecidableEq α] {l : List α} {x : α} {p : α → Bool}
    (hx : x ∈ l) (hpx : p x = true) (huniq : ∀ y ∈ l, p y = true → y = x) :
    removeFirst p l = l.erase x := by
  induction l with
  | nil => simp at hx
  | cons a t ih =>
    by_cases ha : p a = true
    · have hax : a = x := huniq a (List.mem_cons_self a t) ha
      subst hax
      simp [removeFirst, ha, List.erase_cons_head]
    · have hax : a ≠ x := fun h => ha (h ▸ hpx)
      simp only [Bool.not_eq_true] at ha
      have hxt : x ∈ t := by
        rcases List.mem_cons.mp hx with h | h
        · exact absurd h.symm hax
        · exact h
      have htail : (a :: t).erase x = a :: t.erase x := List.erase_cons_tail (by simp [hax])
      rw [htail]
      simp only [removeFirst, ha, Bool.false_eq_true, if_false, List.cons.injEq, true_and]
      exact ih hxt (fun y hy hpy => huniq y (List.mem_cons_of_mem a hy) hpy)

theorem removeFirst_eq_eraseIdx {l : List Message} {p : Message → Bool} {i : Nat}
    (hi : i < l.length) (hp : p (l.get ⟨i, hi⟩) = true)
    (hfirst : ∀ j (hj : j < i), p (l.get ⟨j, Nat.lt_trans hj hi⟩) = false) :
    removeFirst p l = l.eraseIdx i := by
  induction l generalizing i with
  | nil => simp at hi
  | cons a t ih =>
    match i with
    | 0 =>
      simp only [List.get] at hp
      simp [removeFirst, hp, List.eraseIdx]
    | i + 1 =>
      have ha : p a = false := hfirst 0 (Nat.succ_pos i)
      simp only [removeFirst, ha, Bool.false_eq_true, if_false, List.eraseIdx,
        List.cons.injEq, true_and]
      exact ih (by simpa using hi) (by simpa using hp)
        (fun j hj => by simpa using hfirst (j + 1) (Nat.succ_lt_succ hj))

theorem set_perm_cons (l : List Message) (i : Nat) (a : Message) (h : i < l.length) :
    (l.set i a).Perm (a :: l.eraseIdx i) := by
  rw [List.set_eq_take_append_cons_drop, if_pos h, List.eraseIdx_eq_take_drop_succ]
  exact List.perm_middle

theorem countP_removeFirst_of_disjoint {l : List α} {p q : α → Bool}
    (h : ∀ a, p a = true → q a = false) :
    (removeFirst p l).countP q = l.countP q := by
  induction l with
  | nil => rfl
  | cons a t ih =>
    by_cases ha : p a = true
    · simp [removeFirst, ha, List.countP_cons, h a ha]
    · simp only [Bool.not_eq_true] at ha
      simp [removeFirst, ha, List.countP_cons, ih]

theorem countP_removeFirst_self {l : List α} {p : α → Bool}
    (h : l.countP p ≤ 1) : (removeFirst p l).countP p = 0 := by
  induction l with
  | nil => rfl
  | cons a t ih =>
    by_cases ha : p a = true
    · simp only [List.countP_cons, ha, if_pos] at h
      simp only [removeFirst, ha, if_pos]
      omega
    · simp only [Bool.not_eq_true] at ha
      simp only [List.countP_cons, ha, Bool.false_eq_true, if_false, Nat.add_zero] at h
      simp [removeFirst, ha, List.countP_cons, ih h]

theorem removeFirst_of_countP_zero {l : List α} {p : α → Bool}
    (h : l.countP p = 0) : removeFirst p l = l := by
  refine removeFirst_of_not_mem (fun a ha => ?_)
  by_contra hpa
  simp only [Bool.not_eq_false] at hpa
  have hpos : 0 < l.countP p := List.countP_pos_iff.mpr ⟨a, ha, hpa⟩
  omega

theorem bnodup_iff (l : List String) : bnodup l = true ↔ l.Nodup := by
  induction l with
  | nil => simp [bnodup]
  | cons a t ih =>
    have hc : (t.contains a = false) ↔ a ∉ t := by
      rw [Bool.eq_false_iff, Ne, List.elem_iff]
    simp only [bnodup, Bool.and_eq_true, Bool.not_eq_true', ih, List.nodup_cons, hc]

theorem findIndex_eq_none_iff (p : Message → Bool) (l : List Message) :
    findIndex p l = none ↔ ∀ m ∈ l, p m = false := by
  induction l with
  | nil => simp [findIndex]
  | cons a t ih =>
    by_cases ha : p a = true
    · simp [findIndex, ha]
    · simp only [Bool.not_eq_true] at ha
      simp [findIndex, ha, ih]

theorem findIndex_eq_some_spec (p : Message → Bool) (l : List Message) (i : Nat)
    (h : findIndex p l = some i) :
    ∃ hi : i < l.length, p (l.get ⟨i, hi⟩) = true ∧
      ∀ j (hj : j < i), p (l.get ⟨j, Nat.lt_trans hj hi⟩) = false := by
  induction l generalizing i with
  | nil => simp [findIndex] at h
  | cons a t ih =>
    by_cases ha : p a = true
    · simp [findIndex, ha] at h
      subst h
      exact ⟨Nat.succ_pos _, ha, fun j hj => absurd hj (Nat.not_lt_zero j)⟩
    · simp only [Bool.not_eq_true] at ha
      simp [findIndex, ha] at h
      obtain ⟨i0, h0, rfl⟩ := h
      obtain ⟨hi, hp, hfirst⟩ := ih i0 h0
      refine ⟨Nat.succ_lt_succ hi, hp, ?_⟩
      intro j hj
      match j with
      | 0 => simpa using ha
      | j + 1 => exact hfirst j (Nat.lt_of_succ_lt_succ hj)

/-! ### Characterization of each operation's effect on the state components -/

theorem addMessage_messages (s : RState) (now : Nat) (marg : Option MsgArg) :
    (addMessage s now marg).messages = s.messages ++ addedRecords now marg := by
  match marg with
  | none => simp [addMessage, addedRecords]
  | some m =>
    by_cases h : truthy m.text = true
    · simp [addMessage, addedRecords, h]
    · simp only [Bool.not_eq_true] at h
      simp [addMessage, addedRecords, h]

theorem addMessage_dom (s : RState) (now : Nat) (marg : Option MsgArg) :
    (addMessage s now marg).dom = s.dom ++ (addedRecords now marg).map DomNode.msg := by
  match marg with
  | none => simp [addMessage, addedRecords]
  | some m =>
    by_cases h : truthy m.text = true
    · simp [addMessage, addedRecords, h]
    · simp only [Bool.not_eq_true] at h
      simp [addMessage, addedRecords, h]

theorem addMessage_isTyping (s : RState) (now : Nat) (marg : Option MsgArg) :
    (addMessage s now marg).isTyping = s.isTyping := by
  match marg with
  | none => simp [addMessage]
  | some m =>
    by_cases h : truthy m.text = true
    · simp [addMessage, h]
    · simp only [Bool.not_eq_true] at h
      simp [addMessage, h]

theorem foldl_add_spec (ms : List (Nat × Option MsgArg)) (t : RState) :
    (ms.foldl (fun t p => addMessage t p.1 p.2) t).messages = t.messages ++ loadStored ms ∧
    (ms.foldl (fun t p => addMessage t p.1 p.2) t).dom =
      t.dom ++ (loadStored ms).map DomNode.msg ∧
    (ms.foldl (fun t p => addMessage t p.1 p.2) t).isTyping = t.isTyping := by
  induction ms generalizing t with
  | nil => simp [loadStored]
  | cons p rest ih =>
    obtain ⟨now, marg⟩ := p
    obtain ⟨h1, h2, h3⟩ := ih (addMessage t now marg)
    refine ⟨?_, ?_, ?_⟩
    · simp [h1, addMessage_messages, loadStored]
    · simp [h2, addMessage_dom, loadStored]
    · simp [h3, addMessage_isTyping]

theorem loadMessages_messages (s : RState) (ms : List (Nat × Option MsgArg)) :
    (loadMessages s ms).messages = loadStored ms := by
  have := (foldl_add_spec ms (clearMessages s)).1
  simpa [loadMessages, clearMessages] using this

theorem loadMessages_dom (s : RState) (ms : List (Nat × Option MsgArg)) :
    (loadMessages s ms).dom = (loadStored ms).map DomNode.msg := by
  have := (foldl_add_spec ms (clearMessages s)).2.1
  simpa [loadMessages, clearMessages] using this

theorem loadMessages_isTyping (s : RState) (ms : List (Nat × Option MsgArg)) :
    (loadMessages s ms).isTyping = s.isTyping := by
  have := (foldl_add_spec ms (clearMessages s)).2.2
  simpa [loadMessages, clearMessages] using this

theorem handleSuggestionClick_messages (s : RState) (now : Nat) (g : SuggArg) (mid : String) :
    (handleSuggestionClick s now g mid).messages =
      s.messages ++ addedRecords now (some
        { id := some (toString now), text := suggText g, sender := some "user",
          timestamp := some now, userAvatar := none, userInitial := some "U",
          suggestions := none }) := by
  simp [handleSuggestionClick, addMessage_messages]

theorem handleSuggestionClick_dom (s : RState) (now : Nat) (g : SuggArg) (mid : String) :
    (handleSuggestionClick s now g mid).dom =
      s.dom ++ (addedRecords now (some
        { id := some (toString now), text := suggText g, sender := some "user",
          timestamp := some now, userAvatar := none, userInitial := some "U",
          suggestions := none })).map DomNode.msg := by
  simp [handleSuggestionClick, addMessage_dom]

theorem handleSuggestionClick_isTyping (s : RState) (now : Nat) (g : SuggArg) (mid : String) :
    (handleSuggestionClick s now g mid).isTyping = s.isTyping := by
  simp [handleSuggestionClick, addMessage_isTyping]

theorem updateMessage_not_found (s : RState) (mid : String) (u : MsgArg)
    (h : findIndex (fun m => m.id == mid) s.messages = none) :
    (updateMessage s mid u).messages = s.messages ∧
    (updateMessage s mid u).dom = s.dom ∧
    (updateMessage s mid u).isTyping = s.isTyping := by
  simp [updateMessage, h]

theorem updateMessage_found (s : RState) (mid : String) (u : MsgArg) (i : Nat)
    (h : findIndex (fun m => m.id == mid) s.messages = some i) (hi : i < s.messages.length) :
    (updateMessage s mid u).messages =
      s.messages.set i (mergeMsg (s.messages.get ⟨i, hi⟩) u) ∧
    (updateMessage s mid u).dom =
      removeFirst (nodeHasId mid) s.dom ++
        [DomNode.msg (mergeMsg (s.messages.get ⟨i, hi⟩) u)] ∧
    (updateMessage s mid u).isTyping = s.isTyping := by
  have hd : s.messages[i]?.getD default = s.messages[i] := by
    simp [List.getElem?_eq_getElem hi]
  simp [updateMessage, h, hd]

/-! ### Lemmas about `domMessages` and `typingCount` -/

theorem domMessages_append (d1 d2 : List DomNode) :
    domMessages (d1 ++ d2) = domMessages d1 ++ domMessages d2 := by
  simp [domMessages]

theorem domMessages_map_msg (l : List Message) :
    domMessages (l.map DomNode.msg) = l := by
  induction l with
  | nil => rfl
  | cons a t ih => simp [domMessages] at ih ⊢; exact ih

theorem domMessages_removeFirst_hasId (mid : String) (dom : List DomNode) :
    domMessages (removeFirst (nodeHasId mid) dom) =
      removeFirst (fun m => m.id == mid) (domMessages dom) := by
  induction dom with
  | nil => rfl
  | cons n rest ih =>
    match n with
    | .typing => simpa [removeFirst, nodeHasId, domMessages] using ih
    | .msg m =>
      by_cases h : (m.id == mid) = true
      · simp [removeFirst, nodeHasId, domMessages, h]
      · simp only [Bool.not_eq_true] at h
        simp only [removeFirst, nodeHasId, h, Bool.false_eq_true, if_false]
        simpa [domMessages] using ih

theorem domMessages_removeFirst_typing (dom : List DomNode) :
    domMessages (removeFirst isTypingNode dom) = domMessages dom := by
  induction dom with
  | nil => rfl
  | cons n rest ih =>
    match n with
    | .typing => simp [removeFirst, isTypingNode, domMessages]
    | .msg m =>
      simp only [removeFirst, isTypingNode, Bool.false_eq_true, if_false]
      simpa [domMessages] using ih

theorem typingCount_append (d1 d2 : List DomNode) :
    typingCount (d1 ++ d2) = typingCount d1 + typingCount d2 := by
  simp [typingCount, List.countP_append]

theorem typingCount_map_msg (l : List Message) :
    typingCount (l.map DomNode.msg) = 0 := by
  induction l with
  | nil => rfl
  | cons a t ih => simp [typingCount, List.countP_cons, isTypingNode] at ih ⊢

theorem typingCount_removeFirst_hasId (mid : String) (dom : List DomNode) :
    typingCount (removeFirst (nodeHasId mid) dom) = typingCount dom := by
  refine countP_removeFirst_of_disjoint (fun n hn => ?_)
  match n with
  | .msg m => rfl
  | .typing => simp [nodeHasId] at hn

/-! ### Preservation of id uniqueness and of the DOM correspondence -/

theorem nodupPerm_append_records (msgs dm recs : List Message)
    (hn : (msgs.map Message.id).Nodup) (hp : dm.Perm msgs)
    (hfresh : ∀ r ∈ recs, r.id ∉ msgs.map Message.id)
    (hrecs : (recs.map Message.id).Nodup) :
    ((msgs ++ recs).map Message.id).Nodup ∧ (dm ++ recs).Perm (msgs ++ recs) := by
  constructor
  · rw [List.map_append, List.nodup_append]
    refine ⟨hn, hrecs, fun a ha hb => ?_⟩
    obtain ⟨r, hr, rfl⟩ := List.mem_map.mp hb
    exact hfresh r hr ha
  · exact hp.append_right recs

theorem idsOf_mem_iff (s : RState) (j : String) :
    (idsOf s).contains j = true ↔ j ∈ idsOf s := List.elem_iff

theorem step_nodupPerm (s : RState) (op : Op) (hok : opFreshOk s op = true)
    (hn : (idsOf s).Nodup) (hp : (domMessages s.dom).Perm s.messages) :
    (idsOf (step s op)).Nodup ∧ (domMessages (step s op).dom).Perm (step s op).messages := by
  match op with
  | .add now marg =>
    have hfresh : ∀ r ∈ addedRecords now marg, r.id ∉ idsOf s := by
      intro r hr
      match marg with
      | none => simp [addedRecords] at hr
      | some m =>
        by_cases ht : truthy m.text = true
        · simp [addedRecords, ht] at hr
          subst hr
          simp only [opFreshOk, ht, if_pos, Bool.not_eq_true'] at hok
          intro hmem
          have hid : (mkStored now m).id = addId now m := rfl
          rw [hid] at hmem
          rw [(idsOf_mem_iff s _).mpr hmem] at hok
          exact Bool.noConfusion hok
        · simp only [Bool.not_eq_true] at ht
          simp [addedRecords, ht] at hr
    have hrecs : ((addedRecords now marg).map Message.id).Nodup := by
      match marg with
      | none => simp [addedRecords]
      | some m =>
        by_cases ht : truthy m.text = true
        · simp [addedRecords, ht]
        · simp only [Bool.not_eq_true] at ht
          simp [addedRecords, ht]
    have hmain := nodupPerm_append_records s.messages (domMessages s.dom)
      (addedRecords now marg) hn hp hfresh hrecs
    constructor
    · simpa [step, idsOf, addMessage_messages] using hmain.1
    · have hmsg := addMessage_messages s now marg
      have hdom := addMessage_dom s now marg
      simp only [step, hmsg, hdom, domMessages_append, domMessages_map_msg]
      exact hmain.2
  | .update mid u =>
    match hfind : findIndex (fun m => m.id == mid) s.messages with
    | none =>
      obtain ⟨h1, h2, _⟩ := updateMessage_not_found s mid u hfind
      exact ⟨by simpa [step, idsOf, h1] using hn, by simpa [step, h1, h2] using hp⟩
    | some i =>
      obtain ⟨hi, hpi, hfirst⟩ := findIndex_eq_some_spec _ _ _ hfind
      obtain ⟨h1, h2, _⟩ := updateMessage_found s mid u i hfind hi
      have hOldId : s.messages[i].id = mid := by simpa using hpi
      have hmergedId : (mergeMsg (s.messages.get ⟨i, hi⟩) u).id = u.id.getD mid := by
        simp only [mergeMsg, List.get_eq_getElem, hOldId]
      have hilen : i < (idsOf s).length := by simpa [idsOf] using hi
      have hgetIds : (idsOf s).get ⟨i, hilen⟩ = mid := by
        simp only [idsOf, List.get_eq_getElem, List.getElem_map]
        exact hOldId
      have hset : (idsOf s).set i mid = idsOf s := by
        rw [← hgetIds]
        exact set_self (idsOf s) i hilen
      constructor
      · -- uniqueness of ids after the in-place update
        have hids' : idsOf (updateMessage s mid u) =
            (idsOf s).set i (mergeMsg (s.messages.get ⟨i, hi⟩) u).id := by
          simp [idsOf, h1, List.map_set]
        rw [show step s (.update mid u) = updateMessage s mid u from rfl, hids', hmergedId]
        rcases hu : u.id with _ | j
        · rw [Option.getD_none, hset]
          exact hn
        · simp only [Option.getD_some]
          simp only [opFreshOk, hu, Bool.or_eq_true] at hok
          rcases hok with hok | hok
          · have hjm : j = mid := by simpa using hok
            rw [hjm, hset]
            exact hn
          · simp only [Bool.not_eq_true'] at hok
            have hjf : j ∉ idsOf s := by
              intro hmem
              rw [(idsOf_mem_iff s j).mpr hmem] at hok
              exact Bool.noConfusion hok
            exact nodup_set_of_fresh hn hjf
      · -- the DOM message nodes stay a permutation of the list
        have hget_mem : s.messages.get ⟨i, hi⟩ ∈ s.messages := s.messages.get_mem i hi
        have hpx : (fun m => m.id == mid) (s.messages.get ⟨i, hi⟩) = true := by
          simpa using hOldId
        have huniq : ∀ y ∈ s.messages, (fun m => m.id == mid) y = true →
            y = s.messages.get ⟨i, hi⟩ := by
          intro y hy hpy
          refine List.inj_on_of_nodup_map hn hy hget_mem ?_
          have hyid : y.id = mid := by simpa using hpy
          rw [hyid, List.get_eq_getElem, hOldId]
        have huniq_dm : ∀ y ∈ domMessages s.dom, (fun m => m.id == mid) y = true →
            y = s.messages.get ⟨i, hi⟩ :=
          fun y hy hpy => huniq y (hp.mem_iff.mp hy) hpy
        have hmem_dm : s.messages.get ⟨i, hi⟩ ∈ domMessages s.dom :=
          hp.mem_iff.mpr hget_mem
        have e1 : removeFirst (fun m => m.id == mid) (domMessages s.dom) =
            (domMessages s.dom).erase (s.messages.get ⟨i, hi⟩) :=
          removeFirst_eq_erase hmem_dm hpx huniq_dm
        have e2 : removeFirst (fun m => m.id == mid) s.messages =
            s.messages.erase (s.messages.get ⟨i, hi⟩) :=
          removeFirst_eq_erase hget_mem hpx huniq
        have e3 : removeFirst (fun m => m.id == mid) s.messages = s.messages.eraseIdx i :=
          removeFirst_eq_eraseIdx hi hpx hfirst
        have hperm1 : ((domMessages s.dom).erase (s.messages.get ⟨i, hi⟩)).Perm
            (s.messages.eraseIdx i) := by
          rw [← e3, e2]
          exact hp.erase _
        rw [show step s (.update mid u) = updateMessage s mid u from rfl, h1, h2,
          domMessages_append, domMessages_removeFirst_hasId, e1]
        have hsingle : domMessages [DomNode.msg (mergeMsg (s.messages.get ⟨i, hi⟩) u)] =
            [mergeMsg (s.messages.get ⟨i, hi⟩) u] := by simp [domMessages]
        rw [hsingle]
        refine List.Perm.trans (List.perm_append_singleton _ _) ?_
        refine List.Perm.trans (List.Perm.cons _ hperm1) ?_
        exact (set_perm_cons s.messages i _ hi).symm
  | .load ms =>
    have h1 := loadMessages_messages s ms
    have h2 := loadMessages_dom s ms
    constructor
    · rw [show step s (.load ms) = loadMessages s ms from rfl]
      rw [idsOf, h1]
      simp only [opFreshOk] at hok
      rw [bnodup_iff] at hok
      simpa [loadIds] using hok
    · rw [show step s (.load ms) = loadMessages s ms from rfl, h1, h2, domMessages_map_msg]
  | .sugg now g mid =>
    have hmsg := handleSuggestionClick_messages s now g mid
    have hdom := handleSuggestionClick_dom s now g mid
    have hfresh : ∀ r ∈ addedRecords now (some
        { id := some (toString now), text := suggText g, sender := some "user",
          timestamp := some now, userAvatar := none, userInitial := some "U",
          suggestions := none }), r.id ∉ idsOf s := by
      intro r hr
      by_cases ht : truthy (suggText g) = true
      · simp only [addedRecords, ht, if_pos, List.mem_singleton] at hr
        subst hr
        simp only [opFreshOk, ht, if_pos, Bool.not_eq_true'] at hok
        intro hmem
        simp only [mkStored, Option.getD_some] at hmem
        rw [(idsOf_mem_iff s _).mpr hmem] at hok
        exact Bool.noConfusion hok
      · simp only [Bool.not_eq_true] at ht
        simp [addedRecords, ht] at hr
    have hrecs : ((addedRecords now (some
        { id := some (toString now), text := suggText g, sender := some "user",
          timestamp := some now, userAvatar := none, userInitial := some "U",
          suggestions := none })).map Message.id).Nodup := by
      by_cases ht : truthy (suggText g) = true
      · simp [addedRecords, ht]
      · simp only [Bool.not_eq_true] at ht
        simp [addedRecords, ht]
    have hmain := nodupPerm_append_records s.messages (domMessages s.dom) _ hn hp hfresh hrecs
    constructor
    · simpa [step, idsOf, hmsg] using hmain.1
    · simp only [step, hmsg, hdom, domMessages_append, domMessages_map_msg]
      exact hmain.2
  | .clear =>
    exact ⟨by simp [step, clearMessages, idsOf],
      by simp [step, clearMessages, domMessages]⟩
  | .showTy =>
    by_cases h : s.isTyping = true
    · exact ⟨by simpa [step, showTyping, h, idsOf] using hn,
        by simpa [step, showTyping, h] using hp⟩
    · simp only [Bool.not_eq_true] at h
      constructor
      · simpa [step, showTyping, h, idsOf] using hn
      · simp only [step, showTyping, h, Bool.false_eq_true, if_false, domMessages_append]
        simpa [domMessages] using hp
  | .hideTy =>
    exact ⟨by simpa [step, hideTyping, idsOf] using hn,
      by simpa [step, hideTyping, domMessages_removeFirst_typing] using hp⟩


/-- The joint inductive invariant along any sequence satisfying the fresh-id
discipline: ids stay pairwise distinct and the container's message elements
stay a permutation of the in-memory list. -/
theorem runFrom_nodupPerm (ops : List Op) :
    ∀ s : RState, okRun s ops = true → (idsOf s).Nodup →
      (domMessages s.dom).Perm s.messages →
      (idsOf (runFrom s ops)).Nodup ∧
        (domMessages (runFrom s ops).dom).Perm (runFrom s ops).messages := by
  induction ops with
  | nil => intro s _ hn hp; exact ⟨hn, hp⟩
  | cons op rest ih =>
    intro s hok hn hp
    rw [okRun, Bool.and_eq_true] at hok
    obtain ⟨h1, h2⟩ := step_nodupPerm s op hok.1 hn hp
    have : runFrom s (op :: rest) = runFrom (step s op) rest := rfl
    rw [this]
    exact ih (step s op) hok.2 h1 h2

/-! ### C1 -/

/-- C1: for every renderer state and every valid message argument (truthy
`text`), `addMessage` appends exactly one record at the end of the in-memory
list, leaving every previously stored record unchanged in its position; and
no call to `addMessage` (valid or not) ever changes the list other than by
appending at the end. -/
theorem addMessage_appendsExactlyOne (s : RState) (now : Nat) (m : MsgArg)
    (h : truthy m.text = true) :
    (addMessage s now (some m)).messages = s.messages ++ [mkStored now m] ∧
    ∀ marg : Option MsgArg, ∃ tail,
      (addMessage s now marg).messages = s.messages ++ tail ∧ tail.length ≤ 1 := by
  refine ⟨by simp [addMessage, h], ?_⟩
  intro marg
  match marg with
  | none => exact ⟨[], by simp [addMessage], by simp⟩
  | some m' =>
    by_cases h' : truthy m'.text = true
    · exact ⟨[mkStored now m'], by simp [addMessage, h'], by simp⟩
    · simp only [Bool.not_eq_true] at h'
      exact ⟨[], by simp [addMessage, h'], by simp⟩

/-- Witness for C1 at a concrete valid message. -/
theorem addMessage_appendsExactlyOne_witness :
    (addMessage initState 3 (some { text := some "hi" })).messages =
      initState.messages ++ [mkStored 3 { text := some "hi" }] :=
  (addMessage_appendsExactlyOne initState 3 { text := some "hi" } (by decide)).1

/-! ### C9 -/

/-- C9: `addMessage` with a missing message object or a falsy `text` field
logs "Invalid message object" and leaves the in-memory list, the `isTyping`
flag and the DOM exactly as before. -/
theorem addMessage_invalid_unchanged (s : RState) (now : Nat) (marg : Option MsgArg)
    (h : marg = none ∨ ∃ m, marg = some m ∧ truthy m.text = false) :
    (addMessage s now marg).messages = s.messages ∧
    (addMessage s now marg).isTyping = s.isTyping ∧
    (addMessage s now marg).dom = s.dom ∧
    (addMessage s now marg).errors = s.errors ++ ["Invalid message object"] := by
  rcases h with rfl | ⟨m, rfl, hm⟩
  · simp [addMessage]
  · simp [addMessage, hm]

/-- Witness for C9 at the empty-string text argument. -/
theorem addMessage_invalid_unchanged_witness :
    (addMessage initState 3 (some { text := some "" })).messages = initState.messages ∧
    (addMessage initState 3 (some { text := some "" })).isTyping = initState.isTyping ∧
    (addMessage initState 3 (some { text := some "" })).dom = initState.dom ∧
    (addMessage initState 3 (some { text := some "" })).errors =
      initState.errors ++ ["Invalid message object"] :=
  addMessage_invalid_unchanged initState 3 (some { text := some "" })
    (Or.inr ⟨{ text := some "" }, rfl, by decide⟩)

/-! ### C5 -/

/-- C5: `updateMessage(messageId, updates)` updates in place by id: when some
message has the searched id, the slot at the first such index is replaced by
the merge of the old record with the updates (updates winning), every other
slot is unchanged (`List.set` keeps all other positions), and when no message
has that id the list is left entirely unchanged. -/
theorem updateMessage_listSpec (s : RState) (mid : String) (u : MsgArg) :
    ((∃ m ∈ s.messages, m.id = mid) →
      ∃ i, ∃ hi : i < s.messages.length,
        (s.messages.get ⟨i, hi⟩).id = mid ∧
        (∀ j (hj : j < i), (s.messages.get ⟨j, Nat.lt_trans hj hi⟩).id ≠ mid) ∧
        (updateMessage s mid u).messages =
          s.messages.set i (mergeMsg (s.messages.get ⟨i, hi⟩) u)) ∧
    ((∀ m ∈ s.messages, m.id ≠ mid) → (updateMessage s mid u).messages = s.messages) := by
  constructor
  · rintro ⟨m, hm, hid⟩
    match hfind : findIndex (fun m => m.id == mid) s.messages with
    | none =>
      rw [findIndex_eq_none_iff] at hfind
      have := hfind m hm
      simp [hid] at this
    | some i =>
      obtain ⟨hi, hp, hfirst⟩ := findIndex_eq_some_spec _ _ _ hfind
      refine ⟨i, hi, by simpa using hp, ?_, ?_⟩
      · intro j hj
        have := hfirst j hj
        simpa using this
      · simp only [updateMessage, hfind]
        have : s.messages.getD i default = s.messages.get ⟨i, hi⟩ := by
          simp [List.getD_eq_getElem?_getD, List.getElem?_eq_getElem hi]
        rw [this]
  · intro hall
    have hfind : findIndex (fun m => m.id == mid) s.messages = none := by
      rw [findIndex_eq_none_iff]
      intro m hm
      simpa using hall m hm
    simp [updateMessage, hfind]

/-- Witness for C5: both branches at concrete states. -/
theorem updateMessage_listSpec_witness :
    (∃ m ∈ (run [Op.add 0 (some { id := some "a", text := some "x" })]).messages,
        m.id = "a") ∧
    (updateMessage (run [Op.add 0 (some { id := some "a", text := some "x" })])
        "a" { text := some "z" }).messages =
      (run [Op.add 0 (some { id := some "a", text := some "x" })]).messages.set 0
        (mergeMsg (mkStored 0 { id := some "a", text := some "x" }) { text := some "z" }) := by
  have h1 : ∃ m ∈ (run [Op.add 0 (some { id := some "a", text := some "x" })]).messages,
      m.id = "a" := ⟨mkStored 0 { id := some "a", text := some "x" }, by decide, by decide⟩
  obtain ⟨i, hi, hidi, _, heq⟩ :=
    (updateMessage_listSpec (run [Op.add 0 (some { id := some "a", text := some "x" })])
      "a" { text := some "z" }).1 h1
  refine ⟨h1, ?_⟩
  have hlen : (run [Op.add 0 (some { id := some "a", text := some "x" })]).messages.length = 1 := by
    decide
  rw [hlen] at hi
  have hi0 : i = 0 := by omega
  subst hi0
  exact heq

/-! ### C10 -/

/-- C10: `getMessages` returns a fresh shallow copy: the renderer's array is
unchanged, the returned array has equal contents but is a distinct reference,
and any caller mutation of the returned array leaves the renderer's array
untouched. -/
theorem getMessages_freshCopy (st : Store) (r : Nat) (hr : r < st.arrays.length) :
    readRef (getMessagesRef st r).1 r = readRef st r ∧
    readRef (getMessagesRef st r).1 (getMessagesRef st r).2 = readRef st r ∧
    (getMessagesRef st r).2 ≠ r ∧
    ∀ l, readRef (writeRef (getMessagesRef st r).1 (getMessagesRef st r).2 l) r =
      readRef st r := by
  refine ⟨?_, ?_, ?_, ?_⟩
  · simp [readRef, getMessagesRef, List.getD_eq_getElem?_getD, List.getElem?_append_left hr]
  · simp [readRef, getMessagesRef, List.getD_eq_getElem?_getD]
  · exact fun h => absurd (h ▸ hr) (lt_irrefl _)
  · intro l
    simp only [readRef, getMessagesRef, writeRef]
    rw [List.getD_eq_getElem?_getD, List.getElem?_set_ne (by omega),
      List.getElem?_append_left hr, List.getD_eq_getElem?_getD]

/-- Witness for C10 at a one-array heap. -/
theorem getMessages_freshCopy_witness :
    readRef (getMessagesRef ⟨[[default]]⟩ 0).1 0 = readRef ⟨[[default]]⟩ 0 ∧
    ∀ l, readRef (writeRef (getMessagesRef ⟨[[default]]⟩ 0).1
        (getMessagesRef ⟨[[default]]⟩ 0).2 l) 0 = readRef ⟨[[default]]⟩ 0 := by
  obtain ⟨h1, _, _, h4⟩ := getMessages_freshCopy ⟨[[default]]⟩ 0 (by decide)
  exact ⟨h1, h4⟩

/-! ### C6 -/

/-- C6 counterexample: a suggestion whose text is the empty string appends no
message at all (`addMessage` rejects falsy text), although the
`suggestionClick` event is still dispatched. -/
theorem handleSuggestionClick_emptyText_cex :
    (handleSuggestionClick initState 5 (SuggArg.str "") "m1").messages.length ≠
      initState.messages.length + 1 ∧
    (handleSuggestionClick initState 5 (SuggArg.str "") "m1").events.length = 1 := by
  decide

/-- C6 amended: for every suggestion with truthy text, `handleSuggestionClick`
appends exactly one message, with sender `"user"` and the suggestion's text,
and dispatches one `suggestionClick` event carrying the suggestion, the parent
message id and that text. -/
theorem handleSuggestionClick_appends (s : RState) (now : Nat) (g : SuggArg) (mid : String)
    (h : truthy (suggText g) = true) :
    (handleSuggestionClick s now g mid).messages = s.messages ++
      [{ id := toString now, text := (suggText g).getD "", sender := "user",
         timestamp := now, userAvatar := none, userInitial := some "U",
         suggestions := none }] ∧
    (handleSuggestionClick s now g mid).events = s.events ++ [⟨g, mid, suggText g⟩] := by
  constructor
  · simp [handleSuggestionClick, addMessage, h, mkStored]
  · simp [handleSuggestionClick, addMessage, h]

/-- Witness for the amended C6 at a concrete suggestion. -/
theorem handleSuggestionClick_appends_witness :
    (handleSuggestionClick initState 5 (SuggArg.str "yes") "m1").messages =
      initState.messages ++
        [{ id := "5", text := "yes", sender := "user", timestamp := 5,
           userAvatar := none, userInitial := some "U", suggestions := none }] ∧
    (handleSuggestionClick initState 5 (SuggArg.str "yes") "m1").events =
      initState.events ++ [⟨SuggArg.str "yes", "m1", some "yes"⟩] := by
  have h := handleSuggestionClick_appends initState 5 (SuggArg.str "yes") "m1" (by decide)
  simpa using h

/-! ### C2 -/

/-- C2 counterexample: two `addMessage` calls supplying the same explicit id
leave the in-memory list with duplicate ids — uniqueness holds for no
arbitrary operation sequence. -/
theorem uniqueIds_cex :
    ¬ (idsOf (run [Op.add 0 (some { id := some "a", text := some "x" }),
                   Op.add 1 (some { id := some "a", text := some "y" })])).Nodup := by
  decide

/-- C2 amended: the ids of the in-memory messages are pairwise distinct for
every operation sequence from the empty renderer in which each operation
stores only ids not already present (and each bulk load stores pairwise
distinct ids, and an id rewritten by `updateMessage` is the searched id or
fresh). -/
theorem uniqueIds_of_freshIds (ops : List Op) (h : okRun initState ops = true) :
    (idsOf (run ops)).Nodup :=
  (runFrom_nodupPerm ops initState h (by simp [idsOf, initState])
    (by simp [domMessages, initState])).1

/-- Witness for the amended C2 at a concrete fresh-id sequence. -/
theorem uniqueIds_of_freshIds_witness :
    okRun initState [Op.add 0 (some { id := some "a", text := some "x" }),
      Op.add 1 (some { id := some "b", text := some "y" })] = true ∧
    (idsOf (run [Op.add 0 (some { id := some "a", text := some "x" }),
      Op.add 1 (some { id := some "b", text := some "y" })])).Nodup :=
  ⟨by decide, uniqueIds_of_freshIds _ (by decide)⟩

/-! ### C7 -/

/-- C7 counterexample: `updateMessage` on a non-final message removes its DOM
node and re-appends the re-rendered node at the end of the container, so the
document order of the message elements no longer equals the list order. -/
theorem domMirrors_cex :
    domMessages (run [Op.add 0 (some { id := some "a", text := some "x" }),
      Op.add 1 (some { id := some "b", text := some "y" }),
      Op.update "a" { text := some "z" }]).dom ≠
    (run [Op.add 0 (some { id := some "a", text := some "x" }),
      Op.add 1 (some { id := some "b", text := some "y" }),
      Op.update "a" { text := some "z" }]).messages := by
  decide

/-- C7 amended: along any fresh-id operation sequence, the message elements
of the container correspond one-to-one to the in-memory list — they are a
permutation of it — but not necessarily in the same order, since
`updateMessage` moves the updated message's node to the end of the
container. -/
theorem domMirrors_perm (ops : List Op) (h : okRun initState ops = true) :
    (domMessages (run ops).dom).Perm (run ops).messages :=
  (runFrom_nodupPerm ops initState h (by simp [idsOf, initState])
    (by simp [domMessages, initState])).2

/-- Witness for the amended C7 at a sequence containing an update of a
non-final message. -/
theorem domMirrors_perm_witness :
    okRun initState [Op.add 0 (some { id := some "a", text := some "x" }),
      Op.add 1 (some { id := some "b", text := some "y" }),
      Op.update "a" { text := some "z" }] = true ∧
    (domMessages (run [Op.add 0 (some { id := some "a", text := some "x" }),
      Op.add 1 (some { id := some "b", text := some "y" }),
      Op.update "a" { text := some "z" }]).dom).Perm
      (run [Op.add 0 (some { id := some "a", text := some "x" }),
        Op.add 1 (some { id := some "b", text := some "y" }),
        Op.update "a" { text := some "z" }]).messages :=
  ⟨by decide, domMirrors_perm _ (by decide)⟩

/-! ### C3 -/

theorem senderVal_spec {o : Option String} (h : senderVal o = true) (d : String)
    (hd : d = "user" ∨ d = "ai") : o.getD d = "user" ∨ o.getD d = "ai" := by
  rcases o with _ | v
  · simpa using hd
  · simp only [senderVal, Bool.or_eq_true, beq_iff_eq] at h
    simpa using h

theorem addedRecords_senders (now : Nat) (marg : Option MsgArg)
    (hok : (match marg with
      | some m => senderVal m.sender
      | none => true) = true) :
    ∀ m ∈ addedRecords now marg, m.sender = "user" ∨ m.sender = "ai" := by
  intro m hm
  match marg with
  | none => simp [addedRecords] at hm
  | some ma =>
    by_cases ht : truthy ma.text = true
    · simp only [addedRecords, ht, if_pos, List.mem_singleton] at hm
      subst hm
      simp only [mkStored]
      exact senderVal_spec hok "user" (Or.inl rfl)
    · simp only [Bool.not_eq_true] at ht
      simp [addedRecords, ht] at hm

theorem loadStored_senders (ms : List (Nat × Option MsgArg))
    (hok : ms.all (fun p => match p.2 with
      | some m => senderVal m.sender
      | none => true) = true) :
    ∀ m ∈ loadStored ms, m.sender = "user" ∨ m.sender = "ai" := by
  induction ms with
  | nil => simp [loadStored]
  | cons p rest ih =>
    rw [List.all_cons, Bool.and_eq_true] at hok
    intro m hm
    rw [loadStored, List.mem_append] at hm
    rcases hm with hm | hm
    · exact addedRecords_senders p.1 p.2 hok.1 m hm
    · exact ih hok.2 m hm

theorem step_senders (s : RState) (op : Op) (hok : opSenderOk op = true)
    (hs : ∀ m ∈ s.messages, m.sender = "user" ∨ m.sender = "ai") :
    ∀ m ∈ (step s op).messages, m.sender = "user" ∨ m.sender = "ai" := by
  match op with
  | .add now marg =>
    intro m hm
    rw [show step s (.add now marg) = addMessage s now marg from rfl,
      addMessage_messages, List.mem_append] at hm
    rcases hm with hm | hm
    · exact hs m hm
    · exact addedRecords_senders now marg (by simpa [opSenderOk] using hok) m hm
  | .update mid u =>
    intro m hm
    match hfind : findIndex (fun mm => mm.id == mid) s.messages with
    | none =>
      rw [show step s (.update mid u) = updateMessage s mid u from rfl,
        (updateMessage_not_found s mid u hfind).1] at hm
      exact hs m hm
    | some i =>
      obtain ⟨hi, _, _⟩ := findIndex_eq_some_spec _ _ _ hfind
      rw [show step s (.update mid u) = updateMessage s mid u from rfl,
        (updateMessage_found s mid u i hfind hi).1] at hm
      rcases List.mem_or_eq_of_mem_set hm with hm | rfl
      · exact hs m hm
      · have hold := hs _ (s.messages.get_mem i hi)
        simp only [opSenderOk] at hok
        simp only [mergeMsg]
        exact senderVal_spec hok _ hold
  | .load ms =>
    intro m hm
    rw [show step s (.load ms) = loadMessages s ms from rfl, loadMessages_messages] at hm
    exact loadStored_senders ms (by simpa [opSenderOk] using hok) m hm
  | .sugg now g mid =>
    intro m hm
    rw [show step s (.sugg now g mid) = handleSuggestionClick s now g mid from rfl,
      handleSuggestionClick_messages, List.mem_append] at hm
    rcases hm with hm | hm
    · exact hs m hm
    · exact addedRecords_senders now _ (by simp [senderVal]) m hm
  | .clear => intro m hm; simp [step, clearMessages] at hm
  | .showTy =>
    intro m hm
    by_cases h : s.isTyping = true
    · rw [show step s .showTy = showTyping s from rfl] at hm
      simp only [showTyping, h, if_pos] at hm
      exact hs m hm
    · simp only [Bool.not_eq_true] at h
      rw [show step s .showTy = showTyping s from rfl] at hm
      simp only [showTyping, h, Bool.false_eq_true, if_false] at hm
      exact hs m hm
  | .hideTy =>
    intro m hm
    rw [show step s .hideTy = hideTyping s from rfl] at hm
    simp only [hideTyping] at hm
    exact hs m hm

theorem runFrom_senders (ops : List Op) :
    ∀ s : RState, (∀ op ∈ ops, opSenderOk op = true) →
      (∀ m ∈ s.messages, m.sender = "user" ∨ m.sender = "ai") →
      ∀ m ∈ (runFrom s ops).messages, m.sender = "user" ∨ m.sender = "ai" := by
  induction ops with
  | nil => intro s _ hs; exact hs
  | cons op rest ih =>
    intro s hok hs
    have hstep := step_senders s op (hok op (List.mem_cons_self op rest)) hs
    exact ih (step s op) (fun o ho => hok o (List.mem_cons_of_mem op ho)) hstep

/-- C3 counterexample: `addMessage` stores whatever sender value the caller
supplies (the trailing spread overrides the `'user'` default), so a stored
record can have a sender outside `"user"` / `"ai"`. -/
theorem senders_cex :
    ∃ m ∈ (run [Op.add 0 (some { text := some "x", sender := some "bot" })]).messages,
      m.sender ≠ "user" ∧ m.sender ≠ "ai" := by
  decide

/-- C3 amended: every stored record's sender is `"user"` or `"ai"` for every
operation sequence from the empty renderer in which each caller-supplied
sender field is absent or itself `"user"` / `"ai"`. -/
theorem senders_of_senderOk (ops : List Op)
    (h : ∀ op ∈ ops, opSenderOk op = true) :
    ∀ m ∈ (run ops).messages, m.sender = "user" ∨ m.sender = "ai" :=
  runFrom_senders ops initState h (by simp [initState])

/-- Witness for the amended C3 at a concrete sequence and stored record. -/
theorem senders_of_senderOk_witness :
    (mkStored 0 { text := some "x", sender := some "ai" }).sender = "user" ∨
    (mkStored 0 { text := some "x", sender := some "ai" }).sender = "ai" :=
  senders_of_senderOk [Op.add 0 (some { text := some "x", sender := some "ai" })]
    (by decide) (mkStored 0 { text := some "x", sender := some "ai" }) (by decide)

/-! ### C4 -/

/-- C4 counterexample: `updateMessage` whose updates object rewrites the id
makes a previously present id disappear from the list even though the
operation is neither `clearMessages` nor `loadMessages`. -/
theorem noDeletion_cex :
    "a" ∈ idsOf (run [Op.add 0 (some { id := some "a", text := some "x" })]) ∧
    "a" ∉ idsOf (run [Op.add 0 (some { id := some "a", text := some "x" }),
                      Op.update "a" { id := some "b" }]) := by
  decide

/-- C4 amended: every operation other than `clearMessages` and
`loadMessages` — provided an `updateMessage` does not rewrite the id field to
a different id — keeps every previously present id present, and never shrinks
the list; only the bulk clears (and nothing else) remove records. -/
theorem noDeletion (s : RState) (op : Op)
    (h1 : isClearing op = false) (h2 : keepsId op = true) :
    (∀ j ∈ idsOf s, j ∈ idsOf (step s op)) ∧
    s.messages.length ≤ (step s op).messages.length := by
  match op with
  | .add now marg =>
    constructor
    · intro j hj
      rw [show step s (.add now marg) = addMessage s now marg from rfl]
      simp only [idsOf, addMessage_messages, List.map_append, List.mem_append]
      exact Or.inl hj
    · rw [show step s (.add now marg) = addMessage s now marg from rfl,
        addMessage_messages]
      simp
  | .update mid u =>
    match hfind : findIndex (fun mm => mm.id == mid) s.messages with
    | none =>
      have hm := (updateMessage_not_found s mid u hfind).1
      rw [show step s (.update mid u) = updateMessage s mid u from rfl]
      constructor
      · intro j hj
        simpa [idsOf, hm] using hj
      · rw [hm]
    | some i =>
      obtain ⟨hi, hpi, _⟩ := findIndex_eq_some_spec _ _ _ hfind
      have hOldId : s.messages[i].id = mid := by simpa using hpi
      have hmergedId : (mergeMsg (s.messages.get ⟨i, hi⟩) u).id = u.id.getD mid := by
        simp only [mergeMsg, List.get_eq_getElem, hOldId]
      have hilen : i < (idsOf s).length := by simpa [idsOf] using hi
      have hgetIds : (idsOf s).get ⟨i, hilen⟩ = mid := by
        simp only [idsOf, List.get_eq_getElem, List.getElem_map]
        exact hOldId
      have hid : u.id.getD mid = mid := by
        rcases hu : u.id with _ | j
        · simp
        · simp only [keepsId, hu] at h2
          simpa using h2
      have hids : idsOf (updateMessage s mid u) = idsOf s := by
        rw [show idsOf (updateMessage s mid u) =
            (idsOf s).set i (mergeMsg (s.messages.get ⟨i, hi⟩) u).id from by
          simp [idsOf, (updateMessage_found s mid u i hfind hi).1, List.map_set]]
        rw [hmergedId, hid, ← hgetIds]
        exact set_self (idsOf s) i hilen
      rw [show step s (.update mid u) = updateMessage s mid u from rfl]
      constructor
      · intro j hj
        rw [hids]
        exact hj
      · rw [(updateMessage_found s mid u i hfind hi).1, List.length_set]
  | .sugg now g mid =>
    constructor
    · intro j hj
      rw [show step s (.sugg now g mid) = handleSuggestionClick s now g mid from rfl]
      simp only [idsOf, handleSuggestionClick_messages, List.map_append, List.mem_append]
      exact Or.inl hj
    · rw [show step s (.sugg now g mid) = handleSuggestionClick s now g mid from rfl,
        handleSuggestionClick_messages]
      simp
  | .showTy =>
    by_cases h : s.isTyping = true
    · rw [show step s .showTy = showTyping s from rfl]
      simp only [showTyping, h, if_pos]
      exact ⟨fun j hj => hj, le_refl _⟩
    · simp only [Bool.not_eq_true] at h
      rw [show step s .showTy = showTyping s from rfl]
      simp only [showTyping, h, Bool.false_eq_true, if_false]
      exact ⟨fun j hj => hj, le_refl _⟩
  | .hideTy =>
    rw [show step s .hideTy = hideTyping s from rfl]
    simp only [hideTyping]
    exact ⟨fun j hj => hj, le_refl _⟩
  | .clear => simp [isClearing] at h1
  | .load ms => simp [isClearing] at h1

/-- Witness for the amended C4: the id survives an in-place text update. -/
theorem noDeletion_witness :
    "a" ∈ idsOf (step (run [Op.add 0 (some { id := some "a", text := some "x" })])
      (Op.update "a" { text := some "z" })) :=
  (noDeletion (run [Op.add 0 (some { id := some "a", text := some "x" })])
    (Op.update "a" { text := some "z" }) (by decide) (by decide)).1 "a" (by decide)

/-! ### C8 -/

theorem step_typingOk (s : RState) (op : Op) (h : typingOk s) : typingOk (step s op) := by
  obtain ⟨hc, hz⟩ := h
  match op with
  | .add now marg =>
    constructor
    · rw [show step s (.add now marg) = addMessage s now marg from rfl,
        addMessage_dom, typingCount_append, typingCount_map_msg]
      omega
    · rw [show step s (.add now marg) = addMessage s now marg from rfl,
        addMessage_isTyping, addMessage_dom, typingCount_append, typingCount_map_msg]
      intro hf
      rw [hz hf]
  | .update mid u =>
    match hfind : findIndex (fun mm => mm.id == mid) s.messages with
    | none =>
      obtain ⟨_, h2, h3⟩ := updateMessage_not_found s mid u hfind
      rw [show step s (.update mid u) = updateMessage s mid u from rfl]
      exact ⟨by rw [h2]; exact hc, by rw [h2, h3]; exact hz⟩
    | some i =>
      obtain ⟨hi, _, _⟩ := findIndex_eq_some_spec _ _ _ hfind
      obtain ⟨_, h2, h3⟩ := updateMessage_found s mid u i hfind hi
      have hcount : typingCount (updateMessage s mid u).dom = typingCount s.dom := by
        rw [h2, typingCount_append, typingCount_removeFirst_hasId]
        simp [typingCount, List.countP_cons, isTypingNode]
      rw [show step s (.update mid u) = updateMessage s mid u from rfl]
      exact ⟨by rw [hcount]; exact hc, fun hf => by rw [hcount]; exact hz (h3 ▸ hf)⟩
  | .load ms =>
    have hcount : typingCount (loadMessages s ms).dom = 0 := by
      rw [loadMessages_dom, typingCount_map_msg]
    rw [show step s (.load ms) = loadMessages s ms from rfl]
    exact ⟨by rw [hcount]; omega, fun _ => hcount⟩
  | .sugg now g mid =>
    have hcount : typingCount (handleSuggestionClick s now g mid).dom = typingCount s.dom := by
      rw [handleSuggestionClick_dom, typingCount_append, typingCount_map_msg]
      omega
    rw [show step s (.sugg now g mid) = handleSuggestionClick s now g mid from rfl]
    refine ⟨by rw [hcount]; exact hc, fun hf => ?_⟩
    rw [handleSuggestionClick_isTyping] at hf
    rw [hcount]
    exact hz hf
  | .clear =>
    rw [show step s .clear = clearMessages s from rfl]
    exact ⟨by simp [clearMessages, typingCount], fun _ => by simp [clearMessages, typingCount]⟩
  | .showTy =>
    by_cases hf : s.isTyping = true
    · rw [show step s .showTy = showTyping s from rfl]
      simp only [showTyping, hf, if_pos]
      exact ⟨hc, hz⟩
    · simp only [Bool.not_eq_true] at hf
      rw [show step s .showTy = showTyping s from rfl]
      simp only [showTyping, hf, Bool.false_eq_true, if_false]
      constructor
      · rw [typingCount_append, hz hf]
        simp [typingCount, List.countP_cons, isTypingNode]
      · intro habs
        simp at habs
  | .hideTy =>
    rw [show step s .hideTy = hideTyping s from rfl]
    have h0 : typingCount (hideTyping s).dom = 0 := countP_removeFirst_self hc
    exact ⟨by rw [h0]; omega, fun _ => h0⟩

theorem runFrom_typingOk (ops : List Op) :
    ∀ s : RState, typingOk s → typingOk (runFrom s ops) := by
  induction ops with
  | nil => intro s hs; exact hs
  | cons op rest ih => intro s hs; exact ih (step s op) (step_typingOk s op hs)

theorem run_typingOk (ops : List Op) : typingOk (run ops) :=
  runFrom_typingOk ops initState ⟨by simp [initState, typingCount], fun _ => by
    simp [initState, typingCount]⟩

theorem showTyping_showTyping (s : RState) :
    showTyping (showTyping s) = showTyping s := by
  by_cases h : s.isTyping = true
  · simp [showTyping, h]
  · simp only [Bool.not_eq_true] at h
    simp [showTyping, h]

/-- C8: the typing indicator is a transient toggle: `showTyping` with the
flag already set is a no-op, calling `showTyping` twice equals calling it
once, every reachable state has at most one indicator element (also right
after a `showTyping`), and `hideTyping` always clears the flag, removes any
indicator element, and is idempotent on reachable states. -/
theorem typingIndicator_toggle (ops : List Op) :
    ((run ops).isTyping = true → showTyping (run ops) = run ops) ∧
    showTyping (showTyping (run ops)) = showTyping (run ops) ∧
    typingCount (showTyping (run ops)).dom ≤ 1 ∧
    typingCount (run ops).dom ≤ 1 ∧
    (hideTyping (run ops)).isTyping = false ∧
    typingCount (hideTyping (run ops)).dom = 0 ∧
    hideTyping (hideTyping (run ops)) = hideTyping (run ops) := by
  have h := run_typingOk ops
  have hshow : typingOk (showTyping (run ops)) := step_typingOk (run ops) .showTy h
  have h0 : typingCount (hideTyping (run ops)).dom = 0 := countP_removeFirst_self h.1
  refine ⟨fun hf => by simp [showTyping, hf], showTyping_showTyping (run ops),
    hshow.1, h.1, rfl, h0, ?_⟩
  have h0' : typingCount (removeFirst isTypingNode (run ops).dom) = 0 := h0
  simp only [hideTyping]
  rw [removeFirst_of_countP_zero h0']

/-- Witness for C8: `showTyping` is a no-op on a reachable state whose flag
is already set. -/
theorem typingIndicator_toggle_witness :
    showTyping (run [Op.showTy]) = run [Op.showTy] :=
  (typingIndicator_toggle [Op.showTy]).1 (by decide)

end Chat
